import Mathlib

/-!
A shallow embedding of the RethinkDB-backed PFS driver
(`src/server/pfs/db/driver.go`) of the pachyderm repository, together with
theorems checking the natural-language specification against it.

Conventions of the embedding:
* Go structs become Lean structures; machine integers become `Nat`/`Int`
  (`uint64` sizes are `Nat`; the `int64` offset/size of the file reader are
  `Int`).  Timestamps are abstracted as `Nat`.
* Database tables become Lean lists of records; the RethinkDB operations the
  driver issues (get by primary key, get by index, update, insert with a
  conflict resolver) become the corresponding pure list operations.
* Go string operations (`strings.Split`, byte indexing, `strconv.Atoi`) are
  transcribed as structural functions over `String.data`, so that concrete
  runs reduce inside the kernel.  All paths involved are ASCII, where byte
  indexing and character indexing agree.
* Fallible operations return `Except` / `Option`; the blocking change-feed
  wait inside `FinishCommit` is represented by a dedicated `blocked` outcome.
* The block store and the shard predicates are external services (spec §6):
  they enter as parameters.
-/

/-- `persist.FileType`: the file type stored on a diff record.  `NONE` is the
Go zero value. -/
inductive FileType
  | NONE
  | FILE
  | DIR
deriving DecidableEq, Repr

/-- `persist.BlockRef`: a `(hash, lower, upper)` reference to a slice of a
content-addressed block (spec §6). -/
structure BlockRef where
  hash : String
  lower : Nat
  upper : Nat
deriving DecidableEq, Repr

/-- Modelled from the spec: `BlockRef.Size()` lives in the generated
`persist` package, which is not under src.  A block ref points to the byte
slice `[lower, upper)` of a block (spec §6, glossary), so its size is
`upper - lower`. -/
def BlockRef.size (b : BlockRef) : Nat := b.upper - b.lower

/-- `persist.Clock`: one `(branch, n)` step on one branch (spec §3). -/
structure Clock where
  branch : String
  clock : Nat
deriving DecidableEq, Repr

/-- `persist.BranchClock`: an ordered sequence of clocks; the last entry
names the branch the commit lives on (spec §3). -/
structure BranchClock where
  clocks : List Clock
deriving DecidableEq, Repr

/-- `persist.Diff`: one per-commit change record for one path. -/
structure Diff where
  id : String
  repo : String
  commitID : String
  path : String
  branchClocks : List BranchClock
  fileType : FileType
  blockRefs : List BlockRef
  size : Nat
  delete : Bool
  modified : Nat
deriving DecidableEq, Repr

/-- The Go zero value `persist.Diff{}`, used as the base of the read-side
fold and as the default of `computeCommitSize`. -/
def emptyDiff : Diff :=
  { id := "", repo := "", commitID := "", path := "", branchClocks := []
    fileType := FileType.NONE, blockRefs := [], size := 0, delete := false
    modified := 0 }

/-- Accumulator loop of `strings.Split(s, "/")` over the characters of `s`. -/
def splitSlashAux : List Char → List Char → List (List Char)
  | [], acc => [acc.reverse]
  | c :: cs, acc =>
    if c = '/' then acc.reverse :: splitSlashAux cs []
    else splitSlashAux cs (c :: acc)

/-- `strings.Split(s, "/")`: split on every slash; adjacent slashes produce
empty parts, and the empty string yields one empty part. -/
def splitSlash (s : String) : List String :=
  (splitSlashAux s.data []).map String.mk

/-- `fixPath` (driver.go:797-804): prepend a slash if the path does not start
with one, and strip one trailing slash unless the result has length one.
Go tests the first and last byte against `'/'`; since `'/'` is never a
continuation byte of a multi-byte character, testing the first and last
character is equivalent. -/
def fixPath (p : String) : String :=
  let cs := p.data
  let cs1 := if cs.head? = some '/' then cs else '/' :: cs
  let cs2 :=
    if cs1.length > 1 ∧ cs1.getLast? = some '/' then cs1.dropLast else cs1
  String.mk cs2

/-- Inner loop of `getPrefixes` (driver.go:762-774): walk the split parts,
skipping empty parts, extending the accumulated string with `"/" ++ part`. -/
def getPrefixesAux : List String → String → List String
  | [], _ => []
  | part :: rest, acc =>
    if part = "" then getPrefixesAux rest acc
    else
      let acc1 := acc ++ "/" ++ part
      acc1 :: getPrefixesAux rest acc1

/-- `getPrefixes` (driver.go:762-774): the ancestor-directory prefixes that
`PutFile` plans `DIR` diffs for.  The final part of the path is skipped, and
so is every empty part. -/
def getPrefixes (path : String) : List String :=
  getPrefixesAux (splitSlash path).dropLast ""

/-- `getDiffID` (driver.go:776-778): the diff primary key is
`commitID ++ ":" ++ path`. -/
def getDiffID (commitID : String) (path : String) : String :=
  commitID ++ ":" ++ path

/-- The ordering key `persist.BranchClockToArray(diff.BranchClocks[0])` used
by the `OrderBy` inside `foldDiffs` (driver.go:950-952): the first branch
clock of the diff, as a list of `(branch, n)` pairs. -/
def clockKey (d : Diff) : List (String × Nat) :=
  (d.branchClocks.headD ⟨[]⟩).clocks.map (fun c => (c.branch, c.clock))

/-- Bytewise (code-point) strict comparison of strings, the order RethinkDB
uses on string index keys; the branch names involved are ASCII, where byte
order and code-point order agree. -/
def strLtB : List Char → List Char → Bool
  | [], [] => false
  | [], _ :: _ => true
  | _ :: _, [] => false
  | a :: as, b :: bs =>
    if a.toNat < b.toNat then true
    else if b.toNat < a.toNat then false
    else strLtB as bs

/-- Strict string comparison on `String`. -/
def strLt (a b : String) : Bool := strLtB a.data b.data

/-- Lexicographic comparison of clock keys, mirroring RethinkDB's ascending
`orderBy` over arrays of `[string, number]` pairs. -/
def keyLe : List (String × Nat) → List (String × Nat) → Bool
  | [], _ => true
  | _ :: _, [] => false
  | (b1, n1) :: t1, (b2, n2) :: t2 =>
    if strLt b1 b2 then true
    else if strLt b2 b1 then false
    else if n1 < n2 then true
    else if n2 < n1 then false
    else keyLe t1 t2

/-- `diffLe d1 d2` holds when `d1` sorts no later than `d2` in the ascending
clock order used by `foldDiffs`. -/
def diffLe (d1 d2 : Diff) : Bool := keyLe (clockKey d1) (clockKey d2)

/-- Insert a diff into an already sorted list (stable). -/
def insertSorted (d : Diff) : List Diff → List Diff
  | [] => [d]
  | x :: xs => if diffLe d x then d :: x :: xs else x :: insertSorted d xs

/-- The ascending sort by clock performed by the `Reduce(union + OrderBy)`
stage of `foldDiffs` (driver.go:949-952). -/
def sortDiffs (l : List Diff) : List Diff := l.foldr insertSorted []

/-- One step of the read-side fold (driver.go:957-975): a `delete` diff
replaces the accumulated state outright; a non-delete diff appends its block
refs, adds its size, adopts its file type and updates `modified`. -/
def foldDiffStep (acc : Diff) (diff : Diff) : Diff :=
  if diff.delete then
    { acc with
      path := diff.path, commitID := diff.commitID
      blockRefs := diff.blockRefs, fileType := diff.fileType
      size := diff.size, modified := diff.modified }
  else
    { acc with
      path := diff.path, commitID := diff.commitID
      blockRefs := acc.blockRefs ++ diff.blockRefs
      size := acc.size + diff.size, fileType := diff.fileType
      modified := diff.modified }

/-- `foldDiffs` (driver.go:944-977): sort the diffs of one path ascending by
clock and fold them left starting from the zero diff.  An empty input yields
the zero diff (the `Default`/`Fold` base). -/
def foldDiffs (diffs : List Diff) : Diff :=
  (sortDiffs diffs).foldl foldDiffStep emptyDiff

example : getPrefixes "/a/b/c" = ["/a", "/a/b"] := by decide
example : getPrefixes "/a//b/c" = ["/a", "/a/b"] := by decide
example : getPrefixes "/a" = [] := by decide
example : fixPath "a/b/" = "/a/b" := by decide
example : fixPath "/a//" = "/a/" := by decide
example : splitSlash "" = [""] := by decide
example : splitSlash "/a//b" = ["", "a", "", "b"] := by decide

/-- The wire-visible errors of the driver operations modelled here. -/
inductive FsError
  | fileNotFound (path : String) (repo : String) (commit : String)
  | isDirectory (repo : String) (commit : String) (path : String)
  | conflictFileType
  | commitNotFound
deriving DecidableEq, Repr

/-- The shard predicates are supplied by the sharding layer (spec §6) and are
external to the core; the core only evaluates them.  `fileIn` stands for
`pfsserver.FileInShard(filterShard, file)`, `keepEmpty` for
`pfsserver.BlockInShard(filterShard, file, nil)` and `keepBlock` for the
per-block predicate.  A `nil` filter admits everything: `trivialShard`. -/
structure ShardFilter where
  fileIn : Bool
  keepEmpty : Bool
  keepBlock : BlockRef → Bool

/-- The `nil` shard filter: every file and block is in shard. -/
def trivialShard : ShardFilter :=
  { fileIn := true, keepEmpty := true, keepBlock := fun _ => true }

/-- `filterBlockRefs` (driver.go:839-849). -/
def filterBlockRefs (keep : BlockRef → Bool) (refs : List BlockRef) :
    List BlockRef :=
  refs.filter keep

/-- `driver.inspectFile` (driver.go:1092-1137) given the diffs matching the
path across the ancestor clock interval of the commit.  The `Fold` stage
always yields exactly one row, so the `ErrEmptyResult` branch of the Go code
is unreachable; failure can only come from the shard predicates. -/
def inspectFile (sf : ShardFilter) (repo : String) (commit : String)
    (path : String) (diffs : List Diff) : Except FsError Diff :=
  if !sf.fileIn then .error (.fileNotFound path repo commit)
  else
    let diff := foldDiffs diffs
    if diff.blockRefs.isEmpty then
      if !sf.keepEmpty then .error (.fileNotFound path repo commit)
      else .ok diff
    else
      let refs := filterBlockRefs sf.keepBlock diff.blockRefs
      if refs.isEmpty then .error (.fileNotFound path repo commit)
      else .ok { diff with blockRefs := refs }

/-- The `pfs.FileType` values reported by `InspectFile` / `ListFile`. -/
inductive PfsFileType
  | regular
  | dir
deriving DecidableEq, Repr

/-- The fields of `pfs.FileInfo` that `InspectFile` populates. -/
structure FileInfo where
  path : String
  fileType : PfsFileType
  sizeBytes : Nat
  modified : Nat
  commitModified : String
  children : List String
deriving DecidableEq, Repr

/-- `driver.InspectFile` (driver.go:896-938) given the diffs matching the
path across the ancestor interval and, for the directory case, the children
computed by `getChildren` (whose index joins live outside src; they are
passed in as a parameter here).  A folded file type of `NONE` reports the
file as not found. -/
def InspectFile (sf : ShardFilter) (repo : String) (commit : String)
    (path : String) (diffs : List Diff) (childrenDiffs : List Diff) :
    Except FsError FileInfo :=
  match inspectFile sf repo commit (fixPath path) diffs with
  | .error e => .error e
  | .ok diff =>
    match diff.fileType with
    | FileType.FILE =>
      .ok { path := fixPath path, fileType := .regular, sizeBytes := diff.size
            modified := diff.modified, commitModified := diff.commitID
            children := [] }
    | FileType.DIR =>
      .ok { path := fixPath path, fileType := .dir, sizeBytes := 0
            modified := diff.modified, commitModified := ""
            children := childrenDiffs.map (fun d => d.path) }
    | FileType.NONE =>
      .error (.fileNotFound (fixPath path) repo commit)

/-- `driver.checkFileType` (driver.go:646-668) given the diffs matching the
path across the ancestor interval: resolve the effective diff by the fold and
accept unless its type is neither `NONE` nor the planned type.  (With a `nil`
shard filter `inspectFile` cannot fail, so the not-found branch of the Go
code corresponds to the folded type being `NONE`, which also accepts.) -/
def checkFileType (diffsAtPath : List Diff) (typ : FileType) : Bool :=
  !((foldDiffs diffsAtPath).fileType != typ
    && (foldDiffs diffsAtPath).fileType != FileType.NONE)

/-- The state of `fileReader` (driver.go:819-827).  `reader` is the byte
stream of the currently open `GetBlock` call, `none` when no block is open.
`offset`, `size` and `sizeRead` are the Go `int64` fields. -/
structure FileReaderState where
  blockRefs : List BlockRef
  offset : Int
  size : Int
  sizeRead : Int
  reader : Option (List Nat)
deriving DecidableEq, Repr

/-- `driver.newFileReader` (driver.go:829-837). -/
def newFileReader (blockRefs : List BlockRef) (offset : Int) (size : Int) :
    FileReaderState :=
  { blockRefs := blockRefs, offset := offset, size := size, sizeRead := 0
    reader := none }

/-- `driver.GetFile` (driver.go:806-817) given the diffs matching the path
across the ancestor interval: inspect, reject only the `DIR` file type, and
otherwise hand the (filtered) block refs to a fresh file reader. -/
def GetFile (sf : ShardFilter) (repo : String) (commit : String)
    (path : String) (offset : Int) (size : Int) (diffs : List Diff) :
    Except FsError FileReaderState :=
  match inspectFile sf repo commit (fixPath path) diffs with
  | .error e => .error e
  | .ok diff =>
    if diff.fileType = FileType.DIR then
      .error (.isDirectory repo commit (fixPath path))
    else
      .ok (newFileReader diff.blockRefs offset size)

/-- The block-skipping loop of `fileReader.Read` (driver.go:855-867): pop
whole blocks while the remaining offset is at least the block size; stop at
the first block the offset falls inside, or report the final offset when the
refs run out (the `io.EOF` return). -/
def skipBlocks : List BlockRef → Int → Int ⊕ (BlockRef × List BlockRef × Int)
  | [], off => .inl off
  | b :: rest, off =>
    if off ≥ (b.size : Int) then skipBlocks rest (off - (b.size : Int))
    else .inr (b, rest, off)

/-- Outcome of one `fileReader.Read` call: `bytes n eof` is `(n, nil)` or
`(n, io.EOF)`; `readErr` is the over-read error return. -/
inductive ReadOutcome
  | bytes (n : Int) (eof : Bool)
  | readErr
deriving DecidableEq, Repr

/-- The tail of `fileReader.Read` (driver.go:875-889) once a block stream is
open: consume up to `cap` bytes from the stream (the length of the caller's
buffer), drop the stream on its EOF, account `sizeRead`, and return EOF
exactly when `sizeRead` reaches `size`, or the over-read error when `size` is
positive and `sizeRead` exceeds it. -/
def readFromStream (cap : Nat) (r : FileReaderState) (stream : List Nat) :
    ReadOutcome × FileReaderState :=
  let taken := stream.take cap
  let rest := stream.drop cap
  let n : Int := (taken.length : Int)
  let reader1 : Option (List Nat) := if rest.isEmpty then none else some rest
  let sizeRead1 := r.sizeRead + n
  let r1 := { r with reader := reader1, sizeRead := sizeRead1 }
  if sizeRead1 = r.size then (.bytes n true, r1)
  else if r.size > 0 ∧ sizeRead1 > r.size then (.readErr, r1)
  else (.bytes n false, r1)

/-- `fileReader.Read` (driver.go:851-890).  `getBlock` is the external block
store (spec §6): `getBlock hash offset size` is the byte stream returned by
`client.GetBlock`; `cap` is the length of the caller's buffer.  When no block
stream is open, the skip loop selects the block the offset falls inside and
opens it; an exhausted ref list returns `(0, io.EOF)`. -/
def fileReaderRead (getBlock : String → Int → Int → List Nat) (cap : Nat)
    (r : FileReaderState) : ReadOutcome × FileReaderState :=
  match r.reader with
  | some stream => readFromStream cap r stream
  | none =>
    match skipBlocks r.blockRefs r.offset with
    | .inl off => (.bytes 0 true, { r with blockRefs := [], offset := off })
    | .inr (b, rest, off) =>
      let stream := getBlock b.hash off r.size
      readFromStream cap
        { r with blockRefs := rest, offset := 0, reader := some stream } stream

/-- `persist.Repo`: name is the primary key; `Size` is `size_bytes`. -/
structure RepoRec where
  name : String
  created : Nat
  size : Nat
deriving DecidableEq, Repr

/-- `persist.Commit`. -/
structure CommitRec where
  id : String
  repo : String
  started : Nat
  finished : Option Nat
  cancelled : Bool
  branchClocks : List BranchClock
  provenance : List String
  size : Nat
deriving DecidableEq, Repr

/-- `persist.ClockID`: `(repo, branch, clock)` with primary key
`repo/branch/clock` (driver.go:348-355). -/
structure ClockIDRec where
  id : String
  repo : String
  branch : String
  clock : Nat
deriving DecidableEq, Repr

/-- The four RethinkDB tables of the driver (driver.go:44-47). -/
structure DB where
  repos : List RepoRec
  commits : List CommitRec
  diffs : List Diff
  clocks : List ClockIDRec
deriving DecidableEq, Repr

/-- `strconv.Atoi` on the strings relevant here: an optional sign followed by
at least one decimal digit. -/
def goAtoiDigits : List Char → Option Nat
  | [] => none
  | cs => goAtoiDigitsAux cs 0
where
  goAtoiDigitsAux : List Char → Nat → Option Nat
    | [], acc => some acc
    | c :: cs, acc =>
      if 48 ≤ c.toNat ∧ c.toNat ≤ 57 then
        goAtoiDigitsAux cs (acc * 10 + (c.toNat - 48))
      else none

/-- `strconv.Atoi` (sign handling included). -/
def goAtoi (s : String) : Option Int :=
  match s.data with
  | '-' :: cs => (goAtoiDigits cs).map (fun n => -(n : Int))
  | '+' :: cs => (goAtoiDigits cs).map (fun n => (n : Int))
  | cs => (goAtoiDigits cs).map (fun n => (n : Int))

/-- `parseClock` (driver.go:357-374): a string of the form `branch/clock`.
The Go code converts the parsed `int` with `uint64(c)`, which wraps a
negative value modulo `2^64`. -/
def parseClock (s : String) : Option Clock :=
  match splitSlash s with
  | [b, ns] => (goAtoi ns).map (fun c => ⟨b, (c.emod (2 ^ 64)).toNat⟩)
  | _ => none

/-- Modelled from the spec: the `CommitBranchIndex` definition lives in the
index file of the db package, which is not under src.  Per spec §3 it keys a
commit by `(repo, branch, n)` — used for head-of-branch and parent lookup —
so a commit carries one key per branch clock, taken from that branch clock's
last (head) entry. -/
def commitBranchKeyOf (c : CommitRec) (repo : String) (branch : String) :
    Option Nat :=
  if c.repo = repo then
    (c.branchClocks.filterMap (fun bc => bc.clocks.getLast?)).findSome?
      (fun cl => if cl.branch = branch then some cl.clock else none)
  else none

/-- Whether a commit is indexed under `(repo, branch, n)` in
`CommitBranchIndex`. -/
def commitHasBranchKey (c : CommitRec) (repo : String) (branch : String)
    (n : Nat) : Bool :=
  commitBranchKeyOf c repo branch = some n

/-- `driver.getHeadOfBranch` (driver.go:335-346): the commit with the largest
`n` among those indexed under `(repo, branch, *)` (descending index scan,
first row). -/
def getHeadOfBranch (db : DB) (repo : String) (branch : String) :
    Option CommitRec :=
  match db.commits.filterMap
      (fun c => (commitBranchKeyOf c repo branch).map (fun n => (n, c))) with
  | [] => none
  | x :: xs =>
    some (xs.foldl (fun best y => if best.1 < y.1 then y else best) x).2

/-- Primary-key lookup in the commit table. -/
def getCommitByPrimaryKey (db : DB) (id : String) : Option CommitRec :=
  db.commits.find? (fun c => c.id = id)

/-- `getMessageByIndex(commitTable, CommitBranchIndex, key)`: the first
commit indexed under `(repo, branch, n)`. -/
def getCommitByBranchKey (db : DB) (repo : String) (branch : String)
    (n : Nat) : Option CommitRec :=
  db.commits.find? (fun c => commitHasBranchKey c repo branch n)

/-- `driver.getCommitByAmbiguousID` (driver.go:1379-1413): a `branch/n`
alias resolves through `CommitBranchIndex`; otherwise a branch name resolves
to the head of that branch; otherwise the string is a database primary
key. -/
def getCommitByAmbiguousID (db : DB) (repo : String) (commitID : String) :
    Option CommitRec :=
  match parseClock commitID with
  | some cl => getCommitByBranchKey db repo cl.branch cl.clock
  | none =>
    match getHeadOfBranch db repo commitID with
    | some c => some c
    | none => getCommitByPrimaryKey db commitID

/-- `driver.getIDOfParentCommit` (driver.go:1352-1377): derive the parent
from the commit's first branch clock — decrement the last clock if positive,
else step one branch level up — and resolve it through `CommitBranchIndex`.
`.ok none` is the Go `("", nil)` no-parent return.  The Go code indexes
`BranchClocks[0]` unconditionally and would panic on a commit with no branch
clocks; that case is mapped to an error here. -/
def getIDOfParentCommit (db : DB) (repo : String) (commitID : String) :
    Except FsError (Option String) :=
  match getCommitByAmbiguousID db repo commitID with
  | none => .error .commitNotFound
  | some c =>
    match c.branchClocks.head? with
    | none => .error .commitNotFound
    | some onlyBranch =>
      let numClocks := onlyBranch.clocks.length
      match onlyBranch.clocks.getLast? with
      | none => .error .commitNotFound
      | some last =>
        if last.clock = 0 then
          if numClocks < 2 then .ok none
          else
            match onlyBranch.clocks.get? (numClocks - 2) with
            | none => .error .commitNotFound
            | some cl =>
              match getCommitByBranchKey db c.repo cl.branch cl.clock with
              | none => .error .commitNotFound
              | some p => .ok (some p.id)
        else
          match getCommitByBranchKey db c.repo last.branch (last.clock - 1) with
          | none => .error .commitNotFound
          | some p => .ok (some p.id)

/-- `driver.computeCommitSize` (driver.go:380-401): the sum of the sizes of
the diff records whose `CommitID` equals the given commit id (index
`DiffCommitIndex`), `0` when there are none (the `Default` empty diff). -/
def computeCommitSize (db : DB) (commitID : String) : Nat :=
  ((db.diffs.filter (fun d => d.commitID = commitID)).map Diff.size).sum

/-- `Get(key).Update(...)` raising a repo's `Size` by `add`
(driver.go:448-450); a missing key is a no-op, as in RethinkDB. -/
def updateRepoSize (repos : List RepoRec) (name : String) (add : Nat) :
    List RepoRec :=
  repos.map (fun r => if r.name = name then { r with size := r.size + add } else r)

/-- `Get(id).Update(rawCommit)` overwriting a commit record
(driver.go:457). -/
def updateCommit (commits : List CommitRec) (id : String) (new : CommitRec) :
    List CommitRec :=
  commits.map (fun c => if c.id = id then new else c)

/-- The cancellation rule of `FinishCommit` (driver.go:456):
`cancelled = parentCancelled || cancel`. -/
def finishCancelled (parentCancelled : Bool) (cancel : Bool) : Bool :=
  parentCancelled || cancel

/-- The change-feed wait of `FinishCommit` (driver.go:424-443): with a
parent, the waiter blocks until the parent record has non-null `Finished`
and then reads its `Cancelled` flag; without a parent, `parentCancelled`
stays `false`.  `none` means the wait would block (parent missing or not yet
finished). -/
def parentCancelledOf (db : DB) (parentID : Option String) : Option Bool :=
  match parentID with
  | none => some false
  | some pid =>
    match getCommitByPrimaryKey db pid with
    | none => none
    | some p => if p.finished.isSome then some p.cancelled else none

/-- Outcome of `FinishCommit`: success with the new database state, an
error, or a change-feed wait that never returns in a sequential run. -/
inductive FinishResult
  | ok (db : DB)
  | err (e : FsError)
  | blocked
deriving DecidableEq, Repr

/-- `driver.FinishCommit` (driver.go:403-460): resolve the commit, compute
its size from its diffs, wait for the parent (if any) to be finished and read
its cancelled flag, add the size to the repo record, and overwrite the commit
record with `finished`, `cancelled = parentCancelled || cancel` and the
computed size.  There is no check that the commit is still unfinished. -/
def FinishCommit (db : DB) (repo : String) (commitID : String)
    (finished : Nat) (cancel : Bool) : FinishResult :=
  match getCommitByAmbiguousID db repo commitID with
  | none => .err .commitNotFound
  | some rawCommit =>
    let size := computeCommitSize db rawCommit.id
    match getIDOfParentCommit db repo commitID with
    | .error e => .err e
    | .ok parentID =>
      match parentCancelledOf db parentID with
      | none => .blocked
      | some parentCancelled =>
        .ok { db with
              repos := updateRepoSize db.repos rawCommit.repo size
              commits := updateCommit db.commits rawCommit.id
                { rawCommit with
                  size := size, finished := some finished
                  cancelled := finishCancelled parentCancelled cancel } }

/-- Modelled from the spec: `libclock.GetBranchNameFromBranchClock` lives in
the clock package, which is not under src.  Per spec §4.1, `branch_name(bc)`
is the branch of the last clock. -/
def getBranchNameFromBranchClock (bc : BranchClock) : String :=
  ((bc.clocks.getLast?).map Clock.branch).getD ""

/-- `pfs.CommitType`. -/
inductive CommitType
  | read
  | write
deriving DecidableEq, Repr

/-- The fields of `pfs.CommitInfo` populated by the driver. -/
structure CommitInfo where
  repo : String
  id : String
  branch : String
  started : Nat
  finished : Option Nat
  cancelled : Bool
  commitType : CommitType
  sizeBytes : Nat
deriving DecidableEq, Repr

/-- `rawCommitToCommitInfo` (driver.go:480-501): `commit_type` is `WRITE`
exactly when `finished` is null; the branch is the branch name of the first
branch clock (empty when there is none). -/
def rawCommitToCommitInfo (c : CommitRec) : CommitInfo :=
  { repo := c.repo, id := c.id
    branch :=
      match c.branchClocks.head? with
      | some bc => getBranchNameFromBranchClock bc
      | none => ""
    started := c.started, finished := c.finished, cancelled := c.cancelled
    commitType := if c.finished.isSome then .read else .write
    sizeBytes := c.size }

/-- `driver.InspectCommit` (driver.go:462-478): resolve the reference,
convert the record, recompute `size_bytes` on demand for unfinished commits,
and overwrite the returned `Commit.ID` with the reference string the caller
passed in. -/
def InspectCommit (db : DB) (repo : String) (commitID : String) :
    Except FsError CommitInfo :=
  match getCommitByAmbiguousID db repo commitID with
  | none => .error .commitNotFound
  | some raw =>
    let info := rawCommitToCommitInfo raw
    let info :=
      if info.finished.isNone then
        { info with sizeBytes := computeCommitSize db raw.id }
      else info
    .ok { info with id := commitID }

/-- `driver.DeleteRepo` (driver.go:231-234): a single
`Get(name).Delete()` on the repo table; no other table is touched. -/
def DeleteRepo (db : DB) (name : String) : DB :=
  { db with repos := db.repos.filter (fun r => r.name ≠ name) }

/-- `driver.DeleteCommit` (driver.go:640-642): always the unsupported
error. -/
def DeleteCommit (db : DB) (repo : String) (commitID : String) :
    Except String DB :=
  .error "DeleteCommit is not supported"

/-- `pfs.Commits`: the result message of `Merge`. -/
structure CommitsMsg where
  commits : List String
deriving DecidableEq, Repr

/-- `driver.Merge` (driver.go:940-942): returns the empty `pfs.Commits`
message and a nil error, regardless of the inputs. -/
def Merge (db : DB) (fromCommits : List String) (parent : String)
    (strategy : Nat) : Except String CommitsMsg :=
  .ok { commits := [] }

/-- The conflict resolver of the `PutFile` diff upsert (driver.go:738-753):
error if the old diff's type is neither `NONE` nor the new type; otherwise
merge by appending block refs, adding sizes, taking the new file type and the
new modification time. -/
def diffConflictResolver (oldDoc : Diff) (newDoc : Diff) :
    Except FsError Diff :=
  if oldDoc.fileType ≠ FileType.NONE ∧ oldDoc.fileType ≠ newDoc.fileType then
    .error .conflictFileType
  else
    .ok { oldDoc with
          blockRefs := oldDoc.blockRefs ++ newDoc.blockRefs
          size := oldDoc.size + newDoc.size
          fileType := newDoc.fileType
          modified := newDoc.modified }

/-- One document of the `Insert(diffs, Conflict: resolver)` of `PutFile`
(driver.go:737-754): upsert by primary key, resolving an existing document
through `diffConflictResolver`. -/
def insertDiffWithMerge (table : List Diff) (d : Diff) :
    Except FsError (List Diff) :=
  match table.find? (fun o => o.id = d.id) with
  | some o =>
    (diffConflictResolver o d).map
      (fun m => table.map (fun x => if x.id = d.id then m else x))
  | none => .ok (table ++ [d])

/-- The whole batch insert of `PutFile`: the documents are upserted in
order; a conflict error aborts the batch. -/
def insertDiffsWithMerge (table : List Diff) : List Diff →
    Except FsError (List Diff)
  | [] => .ok table
  | d :: rest => do insertDiffsWithMerge (← insertDiffWithMerge table d) rest

/-- One ancestor-directory diff planned by `PutFile` (driver.go:700-711). -/
def putFileDirDiff (commit : CommitRec) (ts : Nat) (pre : String) : Diff :=
  { id := getDiffID commit.id pre, repo := commit.repo
    commitID := commit.id, path := pre
    branchClocks := commit.branchClocks, fileType := FileType.DIR
    blockRefs := [], size := 0, delete := false, modified := ts }

/-- The leaf file diff planned by `PutFile` (driver.go:713-725), carrying
the block refs and their total size. -/
def putFileFileDiff (commit : CommitRec) (path : String)
    (refs : List BlockRef) (ts : Nat) : Diff :=
  { id := getDiffID commit.id path, repo := commit.repo
    commitID := commit.id, path := path
    branchClocks := commit.branchClocks, fileType := FileType.FILE
    blockRefs := refs, size := (refs.map BlockRef.size).sum
    delete := false, modified := ts }

/-- The diffs `PutFile` builds (driver.go:698-725): one `DIR` diff per
ancestor prefix of the (fixed) path, then one `FILE` diff for the path
itself.  All share the commit's id, repo and branch clocks; `ts` stands for
`now()`. -/
def putFilePlannedDiffs (commit : CommitRec) (path : String)
    (refs : List BlockRef) (ts : Nat) : List Diff :=
  ((getPrefixes path).map (putFileDirDiff commit ts))
  ++ [putFileFileDiff commit path refs ts]

/-- `driver.PutFile` (driver.go:670-756) on an open commit, given the
commit's current diff table and, for the type pre-check, the diffs of
strictly earlier commits on each path (`earlier`, the rest of the ancestor
clock interval that `checkFileType`'s fold scans).  The block-store call is
already summarised by `refs` (spec §6: `PutBlock` returns the ordered block
refs).  The path is normalised by `fixPath`, the diffs are planned, each is
checked for a type conflict against the read-side fold, and the batch is
upserted through the conflict resolver. -/
def putFile (earlier : String → List Diff) (table : List Diff)
    (commit : CommitRec) (path0 : String) (refs : List BlockRef) (ts : Nat) :
    Except FsError (List Diff) :=
  let path := fixPath path0
  let planned := putFilePlannedDiffs commit path refs ts
  if planned.all (fun d =>
      checkFileType
        (earlier d.path ++ table.filter (fun t => t.path = d.path))
        d.fileType) then
    insertDiffsWithMerge table planned
  else .error .conflictFileType

theorem find?_map_comm {α : Type} (l : List α) (p : α → Bool) (f : α → α)
    (hp : ∀ x, p (f x) = p x) : (l.map f).find? p = (l.find? p).map f := by
  induction l with
  | nil => rfl
  | cons x xs ih =>
    simp only [List.map_cons, List.find?_cons]
    rw [hp x]
    cases h : p x
    · simpa using ih
    · rfl

theorem foldl_pick_mem {α : Type} :
    ∀ (xs : List (Nat × α)) (x : Nat × α),
      xs.foldl (fun best y => if best.1 < y.1 then y else best) x ∈ x :: xs := by
  intro xs
  induction xs with
  | nil => intro x; simp
  | cons y ys ih =>
    intro x
    simp only [List.foldl_cons]
    rcases List.mem_cons.mp (ih (if x.1 < y.1 then y else x)) with h1 | h1
    · rw [h1]
      by_cases hxy : x.1 < y.1
      · simp [hxy]
      · simp [hxy]
    · exact List.mem_cons_of_mem _ (List.mem_cons_of_mem _ h1)

theorem getHeadOfBranch_mem {db : DB} {repo branch : String} {c : CommitRec}
    (h : getHeadOfBranch db repo branch = some c) : c ∈ db.commits := by
  unfold getHeadOfBranch at h
  split at h
  · exact absurd h (by simp)
  · rename_i x xs heq
    simp only [Option.some_inj] at h
    have hmem : xs.foldl (fun best y => if best.1 < y.1 then y else best) x
        ∈ x :: xs := foldl_pick_mem xs x
    rw [← heq] at hmem
    rcases List.mem_filterMap.mp hmem with ⟨c0, hc0, hmapped⟩
    rcases Option.map_eq_some'.mp hmapped with ⟨n, _, hnc⟩
    have h2 : (xs.foldl (fun best y => if best.1 < y.1 then y else best) x).2
        = c0 := by rw [← hnc]
    rw [← h, h2]
    exact hc0

theorem getCommitByAmbiguousID_mem {db : DB} {repo cid : String}
    {c : CommitRec} (h : getCommitByAmbiguousID db repo cid = some c) :
    c ∈ db.commits := by
  unfold getCommitByAmbiguousID at h
  cases hp : parseClock cid with
  | some cl =>
    rw [hp] at h
    exact List.mem_of_find?_eq_some h
  | none =>
    rw [hp] at h
    cases hh : getHeadOfBranch db repo cid with
    | some c0 =>
      rw [hh] at h
      cases h
      exact getHeadOfBranch_mem hh
    | none =>
      rw [hh] at h
      exact List.mem_of_find?_eq_some h

/-- A finished commit used by several concrete runs below. -/
def exCommitFin : CommitRec :=
  { id := "c1", repo := "r", started := 0, finished := some 5
    cancelled := false, branchClocks := [⟨[⟨"master", 0⟩]⟩]
    provenance := [], size := 0 }

/-- A diff of the commit `c1` used by several concrete runs below. -/
def exDiff1 : Diff :=
  { id := "c1:/x", repo := "r", commitID := "c1", path := "/x"
    branchClocks := [⟨[⟨"master", 0⟩]⟩], fileType := FileType.FILE
    blockRefs := [⟨"h", 0, 3⟩], size := 3, delete := false, modified := 1 }

/-- A small concrete database used by witnesses and counterexamples. -/
def exDB : DB :=
  { repos := [{ name := "r", created := 0, size := 7 }]
    commits := [exCommitFin], diffs := [exDiff1], clocks := [] }

/-- C8, counterexample: the claim says `Merge` returns a distinct
`Unsupported` error for every input, but on this concrete input `Merge`
returns the empty `pfs.Commits` message with a nil error. -/
theorem c8_counterexample :
    Merge exDB [] "" 0 = .ok { commits := [] } := rfl

/-- C8, amended: for every input `DeleteCommit` immediately returns its
unsupported error without reading or writing repository state, while `Merge`
immediately returns an empty result with no error, also without touching
state (both results are independent of the database). -/
theorem c8_unsupported_operations :
    (∀ (db : DB) (repo commitID : String),
      DeleteCommit db repo commitID = .error "DeleteCommit is not supported")
    ∧ (∀ (db : DB) (fromCommits : List String) (parent : String) (s : Nat),
      Merge db fromCommits parent s = .ok { commits := [] }) :=
  ⟨fun _ _ _ => rfl, fun _ _ _ _ => rfl⟩

/-- C3, counterexample: the claim says that after `DeleteRepo "r"` no stored
record of any of the four tables bears the repo name `"r"`, but on this
concrete database the commit and diff records of repo `"r"` survive. -/
theorem c3_counterexample :
    (DeleteRepo exDB "r").commits = [exCommitFin] ∧ exCommitFin.repo = "r"
    ∧ (DeleteRepo exDB "r").diffs = [exDiff1] ∧ exDiff1.repo = "r" :=
  ⟨rfl, rfl, rfl, rfl⟩

/-- C3, amended: `DeleteRepo(name)` deletes only the repo record; the
commit, clock-id and diff tables are left untouched, so records bearing the
repo name survive there. -/
theorem c3_delete_repo_only_repo_record (db : DB) (name : String) :
    (∀ r ∈ (DeleteRepo db name).repos, r.name ≠ name)
    ∧ (DeleteRepo db name).repos = db.repos.filter (fun r => r.name ≠ name)
    ∧ (DeleteRepo db name).commits = db.commits
    ∧ (DeleteRepo db name).diffs = db.diffs
    ∧ (DeleteRepo db name).clocks = db.clocks := by
  refine ⟨?_, rfl, rfl, rfl, rfl⟩
  intro r hr
  have := List.of_mem_filter hr
  simpa using this

/-- C3, witness for the amended theorem at a concrete input. -/
theorem c3_witness :
    (DeleteRepo exDB "r").diffs = exDB.diffs
    ∧ (DeleteRepo exDB "r").commits = exDB.commits :=
  ⟨(c3_delete_repo_only_repo_record exDB "r").2.2.2.1
  , (c3_delete_repo_only_repo_record exDB "r").2.2.1⟩

/-- The commit of the C10 concrete run: primary id `xyz`, alias
`master/0`. -/
def exCommit10 : CommitRec :=
  { id := "xyz", repo := "r", started := 1, finished := some 5
    cancelled := false, branchClocks := [⟨[⟨"master", 0⟩]⟩]
    provenance := [], size := 11 }

/-- Database of the C10 concrete run. -/
def exDB10 : DB :=
  { repos := [], commits := [exCommit10], diffs := [], clocks := [] }

/-- The commit info returned for `InspectCommit(exDB10, "r", "master/0")`. -/
def exInfo10 : CommitInfo :=
  { repo := "r", id := "master/0", branch := "master", started := 1
    finished := some 5, cancelled := false, commitType := .read
    sizeBytes := 11 }

/-- C10: whenever `InspectCommit` succeeds, the returned `Commit.ID` is the
exact reference string the caller passed in, while every other field comes
from the resolved commit record (with `size_bytes` recomputed on demand for
unfinished commits). -/
theorem c10_inspect_commit_echoes_ref (db : DB) (repo commitID : String)
    (info : CommitInfo) (h : InspectCommit db repo commitID = .ok info) :
    info.id = commitID
    ∧ ∀ raw, getCommitByAmbiguousID db repo commitID = some raw →
        info.repo = raw.repo ∧ info.started = raw.started
        ∧ info.finished = raw.finished ∧ info.cancelled = raw.cancelled
        ∧ info.commitType = (if raw.finished.isSome then .read else .write)
        ∧ info.sizeBytes =
            (if raw.finished.isSome then raw.size
             else computeCommitSize db raw.id) := by
  unfold InspectCommit at h
  cases hres : getCommitByAmbiguousID db repo commitID with
  | none => rw [hres] at h; exact absurd h (by simp)
  | some raw0 =>
    rw [hres] at h
    simp only [Except.ok.injEq] at h
    subst h
    constructor
    · rfl
    · intro raw hraw
      have h2 : raw = raw0 := by
        injection hraw with h3
        exact h3.symm
      subst h2
      cases hfin : raw.finished with
      | none =>
        simp [rawCommitToCommitInfo, hfin]
      | some t =>
        simp [rawCommitToCommitInfo, hfin]

/-- C10, witness: inspecting by the alias `master/0` returns the alias as
the commit id even though the stored record's primary id is `xyz`. -/
theorem c10_witness :
    InspectCommit exDB10 "r" "master/0" = .ok exInfo10
    ∧ exInfo10.id = "master/0" ∧ exCommit10.id = "xyz" :=
  ⟨rfl
  , (c10_inspect_commit_echoes_ref exDB10 "r" "master/0" exInfo10 rfl).1
  , rfl⟩

theorem char_toNat_inj {a b : Char} (h : a.toNat = b.toNat) : a = b :=
  Char.eq_of_val_eq (UInt32.eq_of_val_eq (Fin.ext h))

theorem strLtB_irrefl : ∀ as : List Char, strLtB as as = false := by
  intro as
  induction as with
  | nil => rfl
  | cons a as ih => simp [strLtB, ih]

theorem strLtB_trichotomy :
    ∀ as bs : List Char, strLtB as bs = true ∨ strLtB bs as = true ∨ as = bs := by
  intro as
  induction as with
  | nil =>
    intro bs
    cases bs with
    | nil => right; right; rfl
    | cons b bs => left; rfl
  | cons a as ih =>
    intro bs
    cases bs with
    | nil => right; left; rfl
    | cons b bs =>
      rcases Nat.lt_trichotomy a.toNat b.toNat with hn | hn | hn
      · left; simp [strLtB, hn]
      · rcases ih bs with h | h | h
        · left; simp [strLtB, hn, h]
        · right; left; simp [strLtB, hn, h]
        · right; right; rw [char_toNat_inj hn, h]
      · right; left; simp [strLtB, hn]

theorem keyLe_total : ∀ k1 k2 : List (String × Nat),
    keyLe k1 k2 = true ∨ keyLe k2 k1 = true := by
  intro k1
  induction k1 with
  | nil => intro k2; left; rfl
  | cons x t1 ih =>
    intro k2
    cases k2 with
    | nil => right; rfl
    | cons y t2 =>
      obtain ⟨b1, n1⟩ := x
      obtain ⟨b2, n2⟩ := y
      rcases strLtB_trichotomy b1.data b2.data with hb | hb | hb
      · left; simp [keyLe, strLt, hb]
      · right; simp [keyLe, strLt, hb]
      · have hbeq : b1 = b2 := by
          cases b1; cases b2; exact congrArg String.mk hb
        subst hbeq
        have hirr := strLtB_irrefl b1.data
        rcases Nat.lt_trichotomy n1 n2 with hn | hn | hn
        · left; simp [keyLe, strLt, hirr, hn]
        · subst hn
          rcases ih t2 with h | h
          · left; simp [keyLe, strLt, hirr, h]
          · right; simp [keyLe, strLt, hirr, h]
        · right; simp [keyLe, strLt, hirr, hn]

theorem diffLe_total (a b : Diff) : diffLe a b = true ∨ diffLe b a = true :=
  keyLe_total (clockKey a) (clockKey b)

theorem chain'_insertSorted (d : Diff) :
    ∀ l : List Diff, List.Chain' (fun a b => diffLe a b = true) l →
      List.Chain' (fun a b => diffLe a b = true) (insertSorted d l) := by
  intro l
  induction l with
  | nil => intro _; simp [insertSorted]
  | cons x xs ih =>
    intro hch
    have hch' := List.chain'_cons'.mp hch
    unfold insertSorted
    by_cases hd : diffLe d x = true
    · rw [if_pos hd]
      refine List.chain'_cons'.mpr ⟨?_, hch⟩
      intro y hy
      simp at hy
      subst hy
      exact hd
    · rw [if_neg hd]
      refine List.chain'_cons'.mpr ⟨?_, ih hch'.2⟩
      intro y hy
      cases xs with
      | nil =>
        simp [insertSorted] at hy
        subst hy
        rcases diffLe_total d x with h | h
        · exact absurd h hd
        · exact h
      | cons z zs =>
        rw [show insertSorted d (z :: zs)
            = if diffLe d z then d :: z :: zs else z :: insertSorted d zs
            from rfl] at hy
        by_cases hdz : diffLe d z = true
        · rw [if_pos hdz] at hy
          simp at hy
          subst hy
          rcases diffLe_total d x with h | h
          · exact absurd h hd
          · exact h
        · rw [if_neg hdz] at hy
          simp at hy
          subst hy
          exact hch'.1 z (by simp)

theorem insertSorted_perm (d : Diff) :
    ∀ l, List.Perm (insertSorted d l) (d :: l) := by
  intro l
  induction l with
  | nil => simp [insertSorted]
  | cons x xs ih =>
    unfold insertSorted
    by_cases hd : diffLe d x = true
    · rw [if_pos hd]
    · rw [if_neg hd]
      exact (List.Perm.cons x ih).trans (List.Perm.swap d x xs)

theorem sortDiffs_perm : ∀ l, List.Perm (sortDiffs l) l := by
  intro l
  induction l with
  | nil => simp [sortDiffs]
  | cons x xs ih =>
    exact (insertSorted_perm x (sortDiffs xs)).trans (List.Perm.cons x ih)

theorem sortDiffs_chain (l : List Diff) :
    List.Chain' (fun a b => diffLe a b = true) (sortDiffs l) := by
  induction l with
  | nil => simp [sortDiffs]
  | cons x xs ih => exact chain'_insertSorted x _ ih

theorem inspectFile_trivial (repo commit path : String) (diffs : List Diff) :
    inspectFile trivialShard repo commit path diffs = .ok (foldDiffs diffs) := by
  unfold inspectFile trivialShard
  cases h : (foldDiffs diffs).blockRefs with
  | nil => simp [h]
  | cons a as =>
    simp only [Bool.not_true, Bool.false_eq_true, if_false, h,
      List.isEmpty_cons, filterBlockRefs, List.filter_true]
    rw [← h]

/-- C5: when the `PutFile` upsert hits a path where a diff already exists in
the same commit (same primary key), the conflict resolver errors with
`FileTypeConflict` exactly when the old diff's file type is neither `NONE`
nor equal to the new one; otherwise the stored diff becomes the merge with
`block_refs = old ++ new`, `size = old + new`, `file_type` of the new diff
and `modified` of the new diff.  The same condition drives the
`checkFileType` pre-check over the read-side fold. -/
theorem insertDiffWithMerge_found {table : List Diff} {d o : Diff}
    (hfind : table.find? (fun x => x.id = d.id) = some o) :
    insertDiffWithMerge table d = (diffConflictResolver o d).map
      (fun m => table.map (fun x => if x.id = d.id then m else x)) := by
  unfold insertDiffWithMerge
  rw [hfind]

theorem c5_put_file_conflict_resolution :
    (∀ (table : List Diff) (oldDoc newDoc : Diff),
      table.find? (fun o => o.id = newDoc.id) = some oldDoc →
        ((oldDoc.fileType ≠ FileType.NONE
            ∧ oldDoc.fileType ≠ newDoc.fileType →
          insertDiffWithMerge table newDoc = .error .conflictFileType)
        ∧ ((oldDoc.fileType = FileType.NONE
              ∨ oldDoc.fileType = newDoc.fileType) →
          insertDiffWithMerge table newDoc =
            .ok (table.map (fun x => if x.id = newDoc.id then
              { oldDoc with
                blockRefs := oldDoc.blockRefs ++ newDoc.blockRefs
                size := oldDoc.size + newDoc.size
                fileType := newDoc.fileType
                modified := newDoc.modified } else x))
          ∧ (table.map (fun x => if x.id = newDoc.id then
              { oldDoc with
                blockRefs := oldDoc.blockRefs ++ newDoc.blockRefs
                size := oldDoc.size + newDoc.size
                fileType := newDoc.fileType
                modified := newDoc.modified } else x)).find?
                  (fun o => o.id = newDoc.id)
              = some { oldDoc with
                  blockRefs := oldDoc.blockRefs ++ newDoc.blockRefs
                  size := oldDoc.size + newDoc.size
                  fileType := newDoc.fileType
                  modified := newDoc.modified })))
    ∧ (∀ (l : List Diff) (typ : FileType),
        checkFileType l typ = false ↔
          ((foldDiffs l).fileType ≠ typ
            ∧ (foldDiffs l).fileType ≠ FileType.NONE)) := by
  constructor
  · intro table oldDoc newDoc hfind
    have hid : oldDoc.id = newDoc.id := by
      have := List.find?_some hfind
      simpa using this
    constructor
    · intro hconf
      rw [insertDiffWithMerge_found hfind]
      unfold diffConflictResolver
      rw [if_pos hconf]
      rfl
    · intro hok
      have hres : diffConflictResolver oldDoc newDoc =
          .ok { oldDoc with
                blockRefs := oldDoc.blockRefs ++ newDoc.blockRefs
                size := oldDoc.size + newDoc.size
                fileType := newDoc.fileType
                modified := newDoc.modified } := by
        unfold diffConflictResolver
        rw [if_neg]
        rcases hok with h | h
        · intro hc; exact hc.1 h
        · intro hc; exact hc.2 h
      constructor
      · rw [insertDiffWithMerge_found hfind, hres]
        rfl
      · rw [find?_map_comm table (fun o => o.id = newDoc.id)
            (fun x => if x.id = newDoc.id then
              { oldDoc with
                blockRefs := oldDoc.blockRefs ++ newDoc.blockRefs
                size := oldDoc.size + newDoc.size
                fileType := newDoc.fileType
                modified := newDoc.modified } else x)]
        · rw [hfind]
          simp [hid]
        · intro x
          by_cases hx : x.id = newDoc.id
          · simp [hx, hid]
          · simp [hx]
  · intro l typ
    simp [checkFileType, bne_iff_ne]

/-- The new diff of the C5 concrete run: same primary key as `exDiff1`. -/
def exDiff5New : Diff :=
  { id := "c1:/x", repo := "r", commitID := "c1", path := "/x"
    branchClocks := [⟨[⟨"master", 0⟩]⟩], fileType := FileType.FILE
    blockRefs := [⟨"h2", 0, 2⟩], size := 2, delete := false, modified := 9 }

/-- The merged diff stored after upserting `exDiff5New` over `exDiff1`. -/
def exDiff5Merged : Diff :=
  { id := "c1:/x", repo := "r", commitID := "c1", path := "/x"
    branchClocks := [⟨[⟨"master", 0⟩]⟩], fileType := FileType.FILE
    blockRefs := [⟨"h", 0, 3⟩, ⟨"h2", 0, 2⟩], size := 5, delete := false
    modified := 9 }

/-- C5, witness: upserting a second `FILE` diff over `exDiff1` merges block
refs, sizes and the modification time. -/
theorem c5_witness :
    insertDiffWithMerge [exDiff1] exDiff5New = .ok [exDiff5Merged] := by
  have h := ((c5_put_file_conflict_resolution.1 [exDiff1] exDiff1 exDiff5New
    rfl).2 (Or.inr rfl)).1
  rw [h]
  rfl

/-- C1: the effective file state is the left fold, in ascending clock order,
of the diffs on the path: `foldDiffs` is the fold of the sorted diff list
(`sortDiffs` is a permutation of the input and ascending under `diffLe`); a
delete diff replaces the accumulator's block refs, size and file type
outright; a non-delete diff appends block refs, adds sizes, adopts the file
type and updates `modified`; and a folded file type of `NONE` makes
`InspectFile` report the file as not found. -/
theorem c1_fold_semantics :
    (∀ diffs : List Diff,
      foldDiffs diffs = (sortDiffs diffs).foldl foldDiffStep emptyDiff
      ∧ List.Perm (sortDiffs diffs) diffs
      ∧ List.Chain' (fun a b => diffLe a b = true) (sortDiffs diffs))
    ∧ (∀ acc d : Diff, d.delete = true →
        foldDiffStep acc d =
          { acc with
            path := d.path, commitID := d.commitID, blockRefs := d.blockRefs
            fileType := d.fileType, size := d.size, modified := d.modified })
    ∧ (∀ acc d : Diff, d.delete = false →
        foldDiffStep acc d =
          { acc with
            path := d.path, commitID := d.commitID
            blockRefs := acc.blockRefs ++ d.blockRefs
            size := acc.size + d.size, fileType := d.fileType
            modified := d.modified })
    ∧ (∀ (repo commit path : String) (diffs childrenDiffs : List Diff),
        (foldDiffs diffs).fileType = FileType.NONE →
        InspectFile trivialShard repo commit path diffs childrenDiffs
          = .error (.fileNotFound (fixPath path) repo commit)) := by
  refine ⟨fun diffs => ⟨rfl, sortDiffs_perm diffs, sortDiffs_chain diffs⟩,
    ?_, ?_, ?_⟩
  · intro acc d hd
    unfold foldDiffStep
    rw [if_pos hd]
  · intro acc d hd
    unfold foldDiffStep
    rw [if_neg (by simp [hd])]
  · intro repo commit path diffs childrenDiffs h
    unfold InspectFile
    rw [inspectFile_trivial]
    simp only [h]

/-- The delete diff of the C1/C6 concrete runs: a later commit `c2` deletes
the path `/x` written by `exDiff1`. -/
def exDiffDel : Diff :=
  { id := "c2:/x", repo := "r", commitID := "c2", path := "/x"
    branchClocks := [⟨[⟨"master", 1⟩]⟩], fileType := FileType.NONE
    blockRefs := [], size := 0, delete := true, modified := 2 }

/-- C1, witness: a put followed by a delete folds to file type `NONE` and
`InspectFile` reports the file as not found. -/
theorem c1_witness :
    (foldDiffs [exDiff1, exDiffDel]).fileType = FileType.NONE
    ∧ InspectFile trivialShard "r" "c2" "/x" [exDiff1, exDiffDel] []
        = .error (.fileNotFound (fixPath "/x") "r" "c2") :=
  ⟨by decide
  , c1_fold_semantics.2.2.2 "r" "c2" "/x" [exDiff1, exDiffDel] [] (by decide)⟩

theorem FinishCommit_ok_of {db : DB} {repo commitID : String} {fin : Nat}
    {cancel : Bool} {raw : CommitRec} {parentID : Option String} {pc : Bool}
    (hres : getCommitByAmbiguousID db repo commitID = some raw)
    (hpar : getIDOfParentCommit db repo commitID = .ok parentID)
    (hpc : parentCancelledOf db parentID = some pc) :
    FinishCommit db repo commitID fin cancel =
      .ok { db with
            repos := updateRepoSize db.repos raw.repo
              (computeCommitSize db raw.id)
            commits := updateCommit db.commits raw.id
              { raw with
                size := computeCommitSize db raw.id, finished := some fin
                cancelled := finishCancelled pc cancel } } := by
  unfold FinishCommit
  simp only [hres, hpar, hpc]

theorem FinishCommit_ok_inv {db : DB} {repo commitID : String} {fin : Nat}
    {cancel : Bool} {db' : DB}
    (hok : FinishCommit db repo commitID fin cancel = .ok db') :
    ∃ raw parentID pc,
      getCommitByAmbiguousID db repo commitID = some raw
      ∧ getIDOfParentCommit db repo commitID = .ok parentID
      ∧ parentCancelledOf db parentID = some pc
      ∧ db' = { db with
            repos := updateRepoSize db.repos raw.repo
              (computeCommitSize db raw.id)
            commits := updateCommit db.commits raw.id
              { raw with
                size := computeCommitSize db raw.id, finished := some fin
                cancelled := finishCancelled pc cancel } } := by
  unfold FinishCommit at hok
  cases hres : getCommitByAmbiguousID db repo commitID with
  | none => simp only [hres] at hok; exact absurd hok (by simp)
  | some raw =>
    simp only [hres] at hok
    cases hpar : getIDOfParentCommit db repo commitID with
    | error e => simp only [hpar] at hok; exact absurd hok (by simp)
    | ok parentID =>
      simp only [hpar] at hok
      cases hpc : parentCancelledOf db parentID with
      | none => simp only [hpc] at hok; exact absurd hok (by simp)
      | some pc =>
        simp only [hpc, FinishResult.ok.injEq] at hok
        exact ⟨raw, parentID, pc, rfl, rfl, hpc, hok.symm⟩

theorem find?_updateCommit (commits : List CommitRec) (id : String)
    (new : CommitRec) (hnew : new.id = id) :
    (updateCommit commits id new).find? (fun c => c.id = id)
      = (commits.find? (fun c => c.id = id)).map (fun _ => new) := by
  unfold updateCommit
  rw [find?_map_comm]
  · cases h : commits.find? (fun c => c.id = id) with
    | none => rfl
    | some c0 =>
      have hc0 : c0.id = id := by simpa using List.find?_some h
      simp [hc0]
  · intro x
    by_cases hx : x.id = id
    · simp [hx, hnew]
    · simp [hx]

theorem find?_updateRepoSize (repos : List RepoRec) (name : String)
    (add : Nat) :
    (updateRepoSize repos name add).find? (fun r => r.name = name)
      = (repos.find? (fun r => r.name = name)).map
          (fun r => { r with size := r.size + add }) := by
  unfold updateRepoSize
  rw [find?_map_comm]
  · cases h : repos.find? (fun r => r.name = name) with
    | none => rfl
    | some r0 =>
      have hr0 : r0.name = name := by simpa using List.find?_some h
      simp [hr0]
  · intro x
    by_cases hx : x.name = name
    · simp [hx]
    · simp [hx]

/-- C2: when `FinishCommit` succeeds, the commit record is overwritten with
`size` equal to the sum of the sizes of the diff records whose `commit_id`
is that commit, the diff table itself is untouched, and the repo record's
`size_bytes` is incremented by exactly that computed commit size. -/
theorem c2_finish_commit_size (db : DB) (repo commitID : String) (fin : Nat)
    (cancel : Bool) (db' : DB) (raw : CommitRec)
    (hres : getCommitByAmbiguousID db repo commitID = some raw)
    (hok : FinishCommit db repo commitID fin cancel = .ok db') :
    computeCommitSize db raw.id =
      ((db.diffs.filter (fun d => d.commitID = raw.id)).map Diff.size).sum
    ∧ db'.diffs = db.diffs
    ∧ (db.commits.find? (fun c => c.id = raw.id)).isSome = true
    ∧ (db'.commits.find? (fun c => c.id = raw.id)).map CommitRec.size
        = (db.commits.find? (fun c => c.id = raw.id)).map
            (fun _ => computeCommitSize db raw.id)
    ∧ (db'.commits.find? (fun c => c.id = raw.id)).map CommitRec.finished
        = (db.commits.find? (fun c => c.id = raw.id)).map (fun _ => some fin)
    ∧ db'.repos.find? (fun r => r.name = raw.repo)
        = (db.repos.find? (fun r => r.name = raw.repo)).map
            (fun r => { r with size := r.size + computeCommitSize db raw.id }) := by
  obtain ⟨raw0, parentID, pc, hres0, hpar0, hpc0, hdb'⟩ :=
    FinishCommit_ok_inv hok
  have hraw : raw0 = raw := by
    rw [hres0] at hres
    exact Option.some.inj hres
  subst hraw
  have hcom : db'.commits = updateCommit db.commits raw0.id
      { raw0 with
        size := computeCommitSize db raw0.id, finished := some fin
        cancelled := finishCancelled pc cancel } := by rw [hdb']
  have hrep : db'.repos = updateRepoSize db.repos raw0.repo
      (computeCommitSize db raw0.id) := by rw [hdb']
  have hdif : db'.diffs = db.diffs := by rw [hdb']
  have hsome : (db.commits.find? (fun c => c.id = raw0.id)).isSome = true := by
    rw [List.find?_isSome]
    exact ⟨raw0, getCommitByAmbiguousID_mem hres0, by simp⟩
  refine ⟨rfl, hdif, hsome, ?_, ?_, ?_⟩
  · rw [hcom, find?_updateCommit db.commits raw0.id
      { raw0 with
        size := computeCommitSize db raw0.id, finished := some fin
        cancelled := finishCancelled pc cancel } rfl]
    cases h : db.commits.find? (fun c => c.id = raw0.id) with
    | none => rfl
    | some c0 => rfl
  · rw [hcom, find?_updateCommit db.commits raw0.id
      { raw0 with
        size := computeCommitSize db raw0.id, finished := some fin
        cancelled := finishCancelled pc cancel } rfl]
    cases h : db.commits.find? (fun c => c.id = raw0.id) with
    | none => rfl
    | some c0 => rfl
  · rw [hrep]
    exact find?_updateRepoSize db.repos raw0.repo (computeCommitSize db raw0.id)

/-- The unfinished commit of the C2 concrete run. -/
def exCommit2 : CommitRec :=
  { id := "c2", repo := "r", started := 1, finished := none
    cancelled := false, branchClocks := [⟨[⟨"dev", 0⟩]⟩]
    provenance := [], size := 0 }

/-- Database of the C2 concrete run: two diffs of sizes 4 and 6 belong to
commit `c2`; the repo starts at size 7. -/
def exDB2 : DB :=
  { repos := [{ name := "r", created := 0, size := 7 }]
    commits := [exCommit2]
    diffs :=
      [{ id := "c2:/y", repo := "r", commitID := "c2", path := "/y"
         branchClocks := [⟨[⟨"dev", 0⟩]⟩], fileType := FileType.FILE
         blockRefs := [⟨"h1", 0, 4⟩], size := 4, delete := false
         modified := 2 },
       { id := "c2:/z", repo := "r", commitID := "c2", path := "/z"
         branchClocks := [⟨[⟨"dev", 0⟩]⟩], fileType := FileType.FILE
         blockRefs := [⟨"h2", 0, 6⟩], size := 6, delete := false
         modified := 2 }]
    clocks := [] }

/-- The database after `FinishCommit(exDB2, "r", "c2", 9, false)`: the commit
carries size 10 and the repo grew from 7 to 17. -/
def exDB2Fin : DB :=
  { repos := [{ name := "r", created := 0, size := 17 }]
    commits := [{ id := "c2", repo := "r", started := 1, finished := some 9
                  cancelled := false, branchClocks := [⟨[⟨"dev", 0⟩]⟩]
                  provenance := [], size := 10 }]
    diffs := exDB2.diffs, clocks := [] }

/-- C2, witness: finishing `c2` stores size 4 + 6 = 10 on the commit and
adds exactly 10 to the repo record. -/
theorem c2_witness :
    (exDB2Fin.commits.find? (fun c => c.id = exCommit2.id)).map CommitRec.size
      = (exDB2.commits.find? (fun c => c.id = exCommit2.id)).map
          (fun _ => computeCommitSize exDB2 exCommit2.id)
    ∧ exDB2Fin.repos.find? (fun r => r.name = exCommit2.repo)
      = (exDB2.repos.find? (fun r => r.name = exCommit2.repo)).map
          (fun r =>
            { r with size := r.size + computeCommitSize exDB2 exCommit2.id }) :=
  ⟨(c2_finish_commit_size exDB2 "r" "c2" 9 false exDB2Fin exCommit2
      (by decide) (by decide)).2.2.2.1
  , (c2_finish_commit_size exDB2 "r" "c2" 9 false exDB2Fin exCommit2
      (by decide) (by decide)).2.2.2.2.2⟩

/-- The database after re-finishing the already finished commit `c1` of
`exDB`: the repo size grows again by the commit's diff size and the
`finished` timestamp is overwritten. -/
def exDBRefinished : DB :=
  { repos := [{ name := "r", created := 0, size := 10 }]
    commits := [{ id := "c1", repo := "r", started := 0, finished := some 9
                  cancelled := false, branchClocks := [⟨[⟨"master", 0⟩]⟩]
                  provenance := [], size := 3 }]
    diffs := [exDiff1], clocks := [] }

/-- C4, counterexample: the claim says `FinishCommit` on a commit with
non-null `finished` fails with an `AlreadyFinished` error and leaves the
records unchanged; on this concrete database the call succeeds, increments
the repo size again and overwrites `finished`. -/
theorem c4_counterexample :
    exCommitFin.finished = some 5
    ∧ getCommitByAmbiguousID exDB "r" "c1" = some exCommitFin
    ∧ FinishCommit exDB "r" "c1" 9 false = .ok exDBRefinished
    ∧ exDBRefinished ≠ exDB :=
  ⟨rfl, by decide, by decide, by decide⟩

/-- C4, amended: `FinishCommit` performs no already-finished check: called
on a commit whose `finished` field is non-null it succeeds all the same,
recomputes the size, increments the repo record's size again, and overwrites
`finished` and `cancelled`. -/
theorem c4_no_already_finished_check (db : DB) (repo commitID : String)
    (fin : Nat) (cancel : Bool) (raw : CommitRec) (parentID : Option String)
    (pc : Bool) (t : Nat)
    (hres : getCommitByAmbiguousID db repo commitID = some raw)
    (hfin : raw.finished = some t)
    (hpar : getIDOfParentCommit db repo commitID = .ok parentID)
    (hpc : parentCancelledOf db parentID = some pc) :
    FinishCommit db repo commitID fin cancel =
      .ok { db with
            repos := updateRepoSize db.repos raw.repo
              (computeCommitSize db raw.id)
            commits := updateCommit db.commits raw.id
              { raw with
                size := computeCommitSize db raw.id, finished := some fin
                cancelled := finishCancelled pc cancel } } :=
  FinishCommit_ok_of hres hpar hpc

/-- C4, witness for the amended theorem: re-finishing the finished commit
`c1` of `exDB` succeeds. -/
theorem c4_witness :
    FinishCommit exDB "r" "c1" 9 false = .ok exDBRefinished := by
  rw [c4_no_already_finished_check exDB "r" "c1" 9 false exCommitFin none
    false 5 (by decide) rfl rfl rfl]
  decide

/-- C7: the `cancelled` flag stored by `FinishCommit` is `cancel` OR the
parent's `cancelled` flag as read once the parent is finished (`false` when
the commit has no parent); folding this rule along a lineage shows that any
cancelled ancestor makes every descendant finished afterwards cancelled. -/
theorem c7_cancel_propagation :
    (∀ (db : DB) (repo commitID : String) (fin : Nat) (cancel : Bool)
        (db' : DB) (raw : CommitRec) (parentID : Option String) (pc : Bool),
      getCommitByAmbiguousID db repo commitID = some raw →
      getIDOfParentCommit db repo commitID = .ok parentID →
      parentCancelledOf db parentID = some pc →
      FinishCommit db repo commitID fin cancel = .ok db' →
        (db'.commits.find? (fun c => c.id = raw.id)).map CommitRec.cancelled
          = (db.commits.find? (fun c => c.id = raw.id)).map
              (fun _ => cancel || pc)
        ∧ (parentID = none → pc = false)
        ∧ (∀ pid p, parentID = some pid →
            getCommitByPrimaryKey db pid = some p →
            p.finished.isSome = true ∧ pc = p.cancelled))
    ∧ (∀ (start : Bool) (cancels : List Bool),
        cancels.foldl (fun acc c => finishCancelled acc c) start
          = (start || cancels.any (fun b => b))) := by
  constructor
  · intro db repo commitID fin cancel db' raw parentID pc hres hpar hpc hok
    obtain ⟨raw0, parentID0, pc0, hres0, hpar0, hpc0, hdb'⟩ :=
      FinishCommit_ok_inv hok
    have hraw : raw0 = raw := by
      rw [hres0] at hres
      exact Option.some.inj hres
    subst hraw
    have hparentID : parentID0 = parentID := by
      rw [hpar0] at hpar
      exact Except.ok.inj hpar
    subst hparentID
    have hpceq : pc0 = pc := by
      rw [hpc0] at hpc
      exact Option.some.inj hpc
    subst hpceq
    have hcom : db'.commits = updateCommit db.commits raw0.id
        { raw0 with
          size := computeCommitSize db raw0.id, finished := some fin
          cancelled := finishCancelled pc0 cancel } := by rw [hdb']
    refine ⟨?_, ?_, ?_⟩
    · rw [hcom, find?_updateCommit db.commits raw0.id
        { raw0 with
          size := computeCommitSize db raw0.id, finished := some fin
          cancelled := finishCancelled pc0 cancel } rfl]
      cases h : db.commits.find? (fun c => c.id = raw0.id) with
      | none => rfl
      | some c0 =>
        simp only [Option.map_some', Option.some.injEq]
        show finishCancelled pc0 cancel = (cancel || pc0)
        exact Bool.or_comm pc0 cancel
    · intro hnone
      subst hnone
      simp only [parentCancelledOf] at hpc0
      exact (Option.some.inj hpc0).symm
    · intro pid p hpid hp
      subst hpid
      simp only [parentCancelledOf, hp] at hpc0
      cases hpf : p.finished with
      | none => simp [hpf] at hpc0
      | some t =>
        simp only [hpf, Option.isSome_some, if_true] at hpc0
        exact ⟨by simp [hpf], (Option.some.inj hpc0).symm⟩
  · intro start cancels
    induction cancels generalizing start with
    | nil => simp [finishCancelled]
    | cons c cs ih =>
      rw [List.foldl_cons, ih (finishCancelled start c)]
      simp [finishCancelled, List.any_cons, Bool.or_assoc]

/-- The cancelled parent of the C7 concrete run. -/
def exCommit7p : CommitRec :=
  { id := "p", repo := "r", started := 0, finished := some 3
    cancelled := true, branchClocks := [⟨[⟨"m", 0⟩]⟩]
    provenance := [], size := 0 }

/-- The unfinished child of the C7 concrete run: `m/1`, child of `m/0`. -/
def exCommit7q : CommitRec :=
  { id := "q", repo := "r", started := 4, finished := none
    cancelled := false, branchClocks := [⟨[⟨"m", 1⟩]⟩]
    provenance := [], size := 0 }

/-- Database of the C7 concrete run. -/
def exDB7 : DB :=
  { repos := [{ name := "r", created := 0, size := 0 }]
    commits := [exCommit7p, exCommit7q], diffs := [], clocks := [] }

/-- `exDB7` after finishing `q` with `cancel = false`: the parent's
cancellation propagates. -/
def exDB7Fin : DB :=
  { repos := [{ name := "r", created := 0, size := 0 }]
    commits := [exCommit7p
    , { id := "q", repo := "r", started := 4, finished := some 9
        cancelled := true, branchClocks := [⟨[⟨"m", 1⟩]⟩]
        provenance := [], size := 0 }]
    diffs := [], clocks := [] }

/-- C7, witness: finishing the child of a cancelled parent with
`cancel = false` stores `cancelled = true`. -/
theorem c7_witness :
    (exDB7Fin.commits.find? (fun c => c.id = exCommit7q.id)).map
        CommitRec.cancelled
      = (exDB7.commits.find? (fun c => c.id = exCommit7q.id)).map
          (fun _ => (false || true)) :=
  (c7_cancel_propagation.1 exDB7 "r" "q" 9 false exDB7Fin exCommit7q
    (some "p") true (by decide) rfl (by decide) (by decide)).1

theorem readFromStream_bytes (cap : Nat) (r0 : FileReaderState)
    (stream : List Nat) (n : Int) (eof : Bool) (r' : FileReaderState)
    (hpos : 0 < r0.size) (h : readFromStream cap r0 stream = (.bytes n eof, r')) :
    r'.sizeRead ≤ r0.size ∧ r'.size = r0.size
    ∧ (r'.sizeRead = r0.size → eof = true)
    ∧ r'.sizeRead = r0.sizeRead + n := by
  simp only [readFromStream] at h
  split at h
  · rename_i hcond
    simp only [Prod.mk.injEq, ReadOutcome.bytes.injEq] at h
    obtain ⟨⟨hn, heof⟩, hr⟩ := h
    subst hr
    subst hn
    dsimp only
    exact ⟨le_of_eq hcond, rfl, fun _ => heof.symm, rfl⟩
  · split at h
    · simp at h
    · rename_i hcond1 hcond2
      simp only [Prod.mk.injEq, ReadOutcome.bytes.injEq] at h
      obtain ⟨⟨hn, heof⟩, hr⟩ := h
      subst hr
      subst hn
      dsimp only
      refine ⟨?_, rfl, ?_, rfl⟩
      · push_neg at hcond2
        exact hcond2 hpos
      · intro heq
        exact absurd heq hcond1

theorem readFromStream_err (cap : Nat) (r0 : FileReaderState)
    (stream : List Nat) (r' : FileReaderState)
    (h : readFromStream cap r0 stream = (.readErr, r')) :
    0 < r0.size ∧ r0.size < r'.sizeRead ∧ r'.size = r0.size := by
  simp only [readFromStream] at h
  split at h
  · simp at h
  · split at h
    · rename_i hcond1 hcond2
      simp only [Prod.mk.injEq] at h
      obtain ⟨_, hr⟩ := h
      subst hr
      dsimp only
      exact ⟨hcond2.1, hcond2.2, rfl⟩
    · simp at h

theorem skipBlocks_spec :
    ∀ (refs : List BlockRef) (off off' : Int) (b : BlockRef)
      (rest : List BlockRef),
      skipBlocks refs off = .inr (b, rest, off') →
      ∃ skipped, refs = skipped ++ b :: rest
        ∧ off' = off - ((skipped.map (fun s => (BlockRef.size s : Int))).sum)
        ∧ off' < (b.size : Int)
        ∧ ∀ pre s post, skipped = pre ++ s :: post →
            (s.size : Int)
              ≤ off - ((pre.map (fun x => (BlockRef.size x : Int))).sum) := by
  intro refs
  induction refs with
  | nil =>
    intro off off' b rest h
    simp [skipBlocks] at h
  | cons x xs ih =>
    intro off off' b rest h
    unfold skipBlocks at h
    by_cases ho : off ≥ (x.size : Int)
    · rw [if_pos ho] at h
      obtain ⟨skipped, hs1, hs2, hs3, hs4⟩ := ih (off - (x.size : Int)) off' b rest h
      refine ⟨x :: skipped, by rw [List.cons_append, ← hs1], ?_, hs3, ?_⟩
      · simp only [List.map_cons, List.sum_cons]
        omega
      · intro pre s post hpre
        cases pre with
        | nil =>
          simp only [List.nil_append, List.cons.injEq] at hpre
          obtain ⟨hxs, _⟩ := hpre
          subst hxs
          simpa using ho
        | cons y ys =>
          simp only [List.cons_append, List.cons.injEq] at hpre
          obtain ⟨hxy, hsk⟩ := hpre
          subst hxy
          have := hs4 ys s post hsk
          simp only [List.map_cons, List.sum_cons]
          omega
    · rw [if_neg ho] at h
      simp only [Sum.inr.injEq, Prod.mk.injEq] at h
      obtain ⟨hb, hrest, hoff⟩ := h
      subst hb
      subst hrest
      subst hoff
      refine ⟨[], rfl, by simp, by omega, ?_⟩
      intro pre s post hpre
      cases pre <;> simp at hpre

/-- C6, amended: `GetFile` rejects only the `DIR` file type — a folded file
type of `NONE` (a deleted path) yields a reader over the empty block-ref
list rather than an error — and otherwise returns a reader over the folded
ordered block refs.  The reader's skip loop consumes whole blocks while the
offset is at least the block size and opens the block the offset falls
inside; a read step never lets `sizeRead` silently exceed a positive `size`:
reaching `size` returns EOF and exceeding it returns the over-read error. -/
theorem c6_get_file_reader :
    (∀ (repo commit path : String) (offset size : Int) (diffs : List Diff),
      ((foldDiffs diffs).fileType = FileType.DIR →
        GetFile trivialShard repo commit path offset size diffs
          = .error (.isDirectory repo commit (fixPath path)))
      ∧ ((foldDiffs diffs).fileType ≠ FileType.DIR →
        GetFile trivialShard repo commit path offset size diffs
          = .ok (newFileReader (foldDiffs diffs).blockRefs offset size)))
    ∧ (∀ (refs : List BlockRef) (off off' : Int) (b : BlockRef)
        (rest : List BlockRef),
        skipBlocks refs off = .inr (b, rest, off') →
        ∃ skipped, refs = skipped ++ b :: rest
          ∧ off' = off - ((skipped.map (fun s => (BlockRef.size s : Int))).sum)
          ∧ off' < (b.size : Int)
          ∧ ∀ pre s post, skipped = pre ++ s :: post →
              (s.size : Int)
                ≤ off - ((pre.map (fun x => (BlockRef.size x : Int))).sum))
    ∧ (∀ (getBlock : String → Int → Int → List Nat) (cap : Nat)
        (r r' : FileReaderState) (n : Int) (eof : Bool),
        0 < r.size → r.sizeRead ≤ r.size →
        fileReaderRead getBlock cap r = (.bytes n eof, r') →
          r'.sizeRead ≤ r.size ∧ (r'.sizeRead = r.size → eof = true))
    ∧ (∀ (getBlock : String → Int → Int → List Nat) (cap : Nat)
        (r r' : FileReaderState),
        fileReaderRead getBlock cap r = (.readErr, r') →
          0 < r.size ∧ r.size < r'.sizeRead) := by
  refine ⟨?_, skipBlocks_spec, ?_, ?_⟩
  · intro repo commit path offset size diffs
    constructor
    · intro hdir
      unfold GetFile
      rw [inspectFile_trivial]
      simp only [hdir, if_true]
    · intro hne
      unfold GetFile
      rw [inspectFile_trivial]
      simp only [hne, if_false]
  · intro gb cap r r' n eof hpos hle hread
    unfold fileReaderRead at hread
    cases hrd : r.reader with
    | some stream =>
      rw [hrd] at hread
      have h := readFromStream_bytes cap r stream n eof r' hpos hread
      exact ⟨h.1, h.2.2.1⟩
    | none =>
      rw [hrd] at hread
      cases hsk : skipBlocks r.blockRefs r.offset with
      | inl off =>
        rw [hsk] at hread
        simp only [Prod.mk.injEq, ReadOutcome.bytes.injEq] at hread
        obtain ⟨⟨_, heof⟩, hr⟩ := hread
        subst hr
        exact ⟨hle, fun _ => heof.symm⟩
      | inr t =>
        obtain ⟨b, rest, off⟩ := t
        rw [hsk] at hread
        have h := readFromStream_bytes cap
          { r with
            blockRefs := rest, offset := 0
            reader := some (gb b.hash off r.size) }
          (gb b.hash off r.size) n eof r' hpos hread
        exact ⟨h.1, h.2.2.1⟩
  · intro gb cap r r' hread
    unfold fileReaderRead at hread
    cases hrd : r.reader with
    | some stream =>
      rw [hrd] at hread
      have h := readFromStream_err cap r stream r' hread
      exact ⟨h.1, h.2.1⟩
    | none =>
      rw [hrd] at hread
      cases hsk : skipBlocks r.blockRefs r.offset with
      | inl off =>
        rw [hsk] at hread
        simp at hread
      | inr t =>
        obtain ⟨b, rest, off⟩ := t
        rw [hsk] at hread
        have h := readFromStream_err cap
          { r with
            blockRefs := rest, offset := 0
            reader := some (gb b.hash off r.size) }
          (gb b.hash off r.size) r' hread
        exact ⟨h.1, h.2.1⟩

/-- C6, counterexample: the claim says `GetFile` fails for any path whose
folded state is not `FILE`; on this concrete run the path has been deleted
(folded file type `NONE`), yet `GetFile` returns a reader instead of an
error. -/
theorem c6_counterexample :
    (foldDiffs [exDiff1, exDiffDel]).fileType = FileType.NONE
    ∧ GetFile trivialShard "r" "c2" "/x" 0 0 [exDiff1, exDiffDel]
        = .ok (newFileReader [] 0 0) :=
  ⟨by decide, rfl⟩

/-- C6, witness for the amended theorem: a regular file yields a reader over
its folded block refs. -/
theorem c6_witness :
    GetFile trivialShard "r" "c1" "/x" 1 2 [exDiff1]
      = .ok (newFileReader [⟨"h", 0, 3⟩] 1 2) :=
  (c6_get_file_reader.1 "r" "c1" "/x" 1 2 [exDiff1]).2 (by decide)

/-- A `DIR` diff at path `q` exists in the table. -/
def hasDirDiff (table : List Diff) (q : String) : Prop :=
  ∃ d ∈ table, d.path = q ∧ d.fileType = FileType.DIR

/-- The directory-coverage invariant of a commit's diff set: every path with
a leaf `FILE` diff has a `DIR` diff at each of its `getPrefixes` ancestor
prefixes. -/
def dirCovered (table : List Diff) : Prop :=
  ∀ d ∈ table, d.fileType = FileType.FILE →
    ∀ q ∈ getPrefixes d.path, hasDirDiff table q

theorem getDiffID_inj {cid p q : String}
    (h : getDiffID cid p = getDiffID cid q) : p = q := by
  unfold getDiffID at h
  have h2 : (cid ++ ":" ++ p).data = (cid ++ ":" ++ q).data := by rw [h]
  simp only [String.data_append] at h2
  have h3 := List.append_cancel_left h2
  cases p
  cases q
  exact congrArg String.mk h3

theorem insertDiffWithMerge_char {cid : String} {table table' : List Diff}
    {d : Diff}
    (hkey : ∀ x ∈ table, x.id = getDiffID cid x.path)
    (hd : d.id = getDiffID cid d.path)
    (hnd : (table.map Diff.path).Nodup)
    (hok : insertDiffWithMerge table d = .ok table') :
    (∀ x ∈ table', x.id = getDiffID cid x.path)
    ∧ (table'.map Diff.path).Nodup
    ∧ (∀ x ∈ table, x.path ≠ d.path → x ∈ table')
    ∧ (∀ x ∈ table', x.path ≠ d.path → x ∈ table)
    ∧ (∃ x ∈ table', x.path = d.path ∧ x.fileType = d.fileType)
    ∧ (∀ x ∈ table', x.path = d.path → x.fileType = d.fileType)
    ∧ (∀ x ∈ table, x.path = d.path →
        x.fileType = FileType.NONE ∨ x.fileType = d.fileType) := by
  have hidpath : ∀ x ∈ table, (x.id = d.id ↔ x.path = d.path) := by
    intro x hx
    constructor
    · intro h
      exact getDiffID_inj (show getDiffID cid x.path = getDiffID cid d.path by
        rw [← hkey x hx, h, hd])
    · intro h
      rw [hkey x hx, h, ← hd]
  unfold insertDiffWithMerge at hok
  cases hfind : table.find? (fun o => o.id = d.id) with
  | none =>
    simp only [hfind, Except.ok.injEq] at hok
    subst hok
    have hno : ∀ x ∈ table, x.path ≠ d.path := by
      intro x hx hxp
      have h2 := List.find?_eq_none.mp hfind x hx
      simp only [decide_eq_true_eq] at h2
      exact h2 ((hidpath x hx).mpr hxp)
    refine ⟨?_, ?_, ?_, ?_, ?_, ?_, ?_⟩
    · intro x hx
      rcases List.mem_append.mp hx with h | h
      · exact hkey x h
      · rw [List.mem_singleton.mp h]
        exact hd
    · rw [List.map_append]
      rw [List.nodup_append]
      refine ⟨hnd, by simp, ?_⟩
      intro a ha hb
      simp only [List.map_cons, List.map_nil, List.mem_singleton] at hb
      obtain ⟨x, hx, hxa⟩ := List.mem_map.mp ha
      exact hno x hx (by rw [hxa, hb])
    · intro x hx _
      exact List.mem_append_left _ hx
    · intro x hx hxp
      rcases List.mem_append.mp hx with h | h
      · exact h
      · exact absurd (congrArg Diff.path (List.mem_singleton.mp h)) hxp
    · exact ⟨d, List.mem_append_right _ (List.mem_singleton_self d), rfl, rfl⟩
    · intro x hx hxp
      rcases List.mem_append.mp hx with h | h
      · exact absurd hxp (hno x h)
      · rw [List.mem_singleton.mp h]
    · intro x hx hxp
      exact absurd hxp (hno x hx)
  | some o =>
    simp only [hfind] at hok
    have ho_mem : o ∈ table := List.mem_of_find?_eq_some hfind
    have ho_id : o.id = d.id := by simpa using List.find?_some hfind
    have ho_path : o.path = d.path := (hidpath o ho_mem).mp ho_id
    unfold diffConflictResolver at hok
    by_cases hc : o.fileType ≠ FileType.NONE ∧ o.fileType ≠ d.fileType
    · rw [if_pos hc] at hok
      simp [Except.map] at hok
    · rw [if_neg hc] at hok
      simp only [Except.map, Except.ok.injEq] at hok
      subst hok
      have hidpath2 : ∀ x ∈ table, x.id = d.id → x.path = d.path :=
        fun x hx h => (hidpath x hx).mp h
      have hpath_pres : ∀ x ∈ table,
          (if x.id = d.id then
            { o with
              blockRefs := o.blockRefs ++ d.blockRefs
              size := o.size + d.size, fileType := d.fileType
              modified := d.modified } else x).path = x.path := by
        intro x hx
        by_cases hxid : x.id = d.id
        · rw [if_pos hxid]
          show o.path = x.path
          rw [ho_path, hidpath2 x hx hxid]
        · rw [if_neg hxid]
      refine ⟨?_, ?_, ?_, ?_, ?_, ?_, ?_⟩
      · intro x' hx'
        obtain ⟨x, hx, hfx⟩ := List.mem_map.mp hx'
        subst hfx
        by_cases hxid : x.id = d.id
        · rw [if_pos hxid]
          exact hkey o ho_mem
        · rw [if_neg hxid]
          exact hkey x hx
      · rw [List.map_map]
        have heq : table.map
            (Diff.path ∘ fun x => if x.id = d.id then
              { o with
                blockRefs := o.blockRefs ++ d.blockRefs
                size := o.size + d.size, fileType := d.fileType
                modified := d.modified } else x) = table.map Diff.path := by
          refine List.map_congr_left ?_
          intro x hx
          exact hpath_pres x hx
        rw [heq]
        exact hnd
      · intro x hx hxp
        have hxid : ¬ x.id = d.id := fun h => hxp (hidpath2 x hx h)
        refine List.mem_map.mpr ⟨x, hx, ?_⟩
        rw [if_neg hxid]
      · intro x' hx' hxp
        obtain ⟨x, hx, hfx⟩ := List.mem_map.mp hx'
        by_cases hxid : x.id = d.id
        · rw [if_pos hxid] at hfx
          refine absurd ?_ hxp
          rw [← hfx]
          exact ho_path
        · rw [if_neg hxid] at hfx
          rw [← hfx]
          exact hx
      · refine ⟨{ o with
            blockRefs := o.blockRefs ++ d.blockRefs
            size := o.size + d.size, fileType := d.fileType
            modified := d.modified },
          List.mem_map.mpr ⟨o, ho_mem, by rw [if_pos ho_id]⟩, ho_path, rfl⟩
      · intro x' hx' hxp
        obtain ⟨x, hx, hfx⟩ := List.mem_map.mp hx'
        by_cases hxid : x.id = d.id
        · rw [if_pos hxid] at hfx
          rw [← hfx]
        · rw [if_neg hxid] at hfx
          subst hfx
          exact absurd (hidpath x hx |>.mpr hxp) hxid
      · intro x hx hxp
        have hxo : x = o := by
          refine List.inj_on_of_nodup_map hnd hx ho_mem ?_
          show x.path = o.path
          rw [hxp, ho_path]
        subst hxo
        rcases not_and_or.mp hc with h | h
        · exact Or.inl (not_not.mp h)
        · exact Or.inr (not_not.mp h)

theorem insertDiffsWithMerge_cons_ok {table table' : List Diff} {d : Diff}
    {rest : List Diff}
    (h : insertDiffsWithMerge table (d :: rest) = .ok table') :
    ∃ tmid, insertDiffWithMerge table d = .ok tmid
      ∧ insertDiffsWithMerge tmid rest = .ok table' := by
  rw [show insertDiffsWithMerge table (d :: rest)
      = Except.bind (insertDiffWithMerge table d)
          (fun t => insertDiffsWithMerge t rest) from rfl] at h
  cases hi : insertDiffWithMerge table d with
  | error e =>
    rw [hi] at h
    simp [Except.bind] at h
  | ok tmid =>
    rw [hi] at h
    exact ⟨tmid, rfl, h⟩

theorem insertDiffsWithMerge_append_ok {l1 l2 : List Diff} :
    ∀ {table table' : List Diff},
      insertDiffsWithMerge table (l1 ++ l2) = .ok table' →
      ∃ tmid, insertDiffsWithMerge table l1 = .ok tmid
        ∧ insertDiffsWithMerge tmid l2 = .ok table' := by
  induction l1 with
  | nil =>
    intro table table' h
    exact ⟨table, rfl, h⟩
  | cons d ds ih =>
    intro table table' h
    obtain ⟨t1, hi, hrest⟩ := insertDiffsWithMerge_cons_ok h
    obtain ⟨tmid, h1, h2⟩ := ih hrest
    refine ⟨tmid, ?_, h2⟩
    rw [show insertDiffsWithMerge table (d :: ds)
        = Except.bind (insertDiffWithMerge table d)
            (fun t => insertDiffsWithMerge t ds) from rfl, hi]
    exact h1

theorem insertDiffs_dir_phase {cid : String} :
    ∀ (ds : List Diff) (table table' : List Diff),
      (∀ x ∈ table, x.id = getDiffID cid x.path) →
      (table.map Diff.path).Nodup →
      (∀ p ∈ ds, p.id = getDiffID cid p.path ∧ p.fileType = FileType.DIR) →
      insertDiffsWithMerge table ds = .ok table' →
      (∀ x ∈ table', x.id = getDiffID cid x.path)
      ∧ (table'.map Diff.path).Nodup
      ∧ (∀ q, hasDirDiff table q → hasDirDiff table' q)
      ∧ (∀ p ∈ ds, hasDirDiff table' p.path)
      ∧ (∀ x ∈ table', x.fileType = FileType.FILE → x ∈ table) := by
  intro ds
  induction ds with
  | nil =>
    intro table table' hkey hnd _ hok
    have h : table = table' := by
      simpa [insertDiffsWithMerge] using hok
    subst h
    exact ⟨hkey, hnd, fun _ h => h, by simp, fun x hx _ => hx⟩
  | cons p ps ih =>
    intro table table' hkey hnd hall hok
    obtain ⟨tmid, hi, hrest⟩ := insertDiffsWithMerge_cons_ok hok
    have hp := hall p (List.mem_cons_self p ps)
    have hchar := insertDiffWithMerge_char hkey hp.1 hnd hi
    have hdir_tmid : hasDirDiff tmid p.path := by
      obtain ⟨y, hy, hyp, hyt⟩ := hchar.2.2.2.2.1
      exact ⟨y, hy, hyp, hyt.trans hp.2⟩
    have hmono : ∀ q, hasDirDiff table q → hasDirDiff tmid q := by
      intro q hq
      obtain ⟨x, hx, hxp, hxt⟩ := hq
      by_cases hqp : q = p.path
      · subst hqp
        exact hdir_tmid
      · exact ⟨x, hchar.2.2.1 x hx (fun h => hqp (hxp ▸ h ▸ rfl)), hxp, hxt⟩
    obtain ⟨ha, hb, hc, hdd, he⟩ := ih tmid table' hchar.1 hchar.2.1
      (fun x hx => hall x (List.mem_cons_of_mem _ hx)) hrest
    refine ⟨ha, hb, fun q hq => hc q (hmono q hq), ?_, ?_⟩
    · intro x hx
      rcases List.mem_cons.mp hx with h | h
      · subst h
        exact hc x.path hdir_tmid
      · exact hdd x h
    · intro x hx hft
      have hx2 := he x hx hft
      by_cases hxp : x.path = p.path
      · have h2 := hchar.2.2.2.2.2.1 x hx2 hxp
        rw [hft, hp.2] at h2
        exact FileType.noConfusion h2
      · exact hchar.2.2.2.1 x hx2 hxp

/-- C9, amended: after any successful `PutFile` of a path in a commit, the
commit's diff set has a leaf `FILE` diff at the (fixed) path, a `DIR` diff at
every prefix `getPrefixes` computes — the cumulative joins of the nonempty
path components, empty components being skipped — and, assuming the table
was well-keyed, duplicate-free and covered before, every path with a leaf
`FILE` diff keeps a `DIR` diff at each of its `getPrefixes` prefixes.
(Ancestor paths formed through empty components receive no `DIR` diff; see
the counterexample.) -/
theorem c9_put_file_dir_coverage (earlier : String → List Diff)
    (table : List Diff) (commit : CommitRec) (path0 : String)
    (refs : List BlockRef) (ts : Nat) (table' : List Diff)
    (hkey : ∀ x ∈ table, x.id = getDiffID commit.id x.path)
    (hnd : (table.map Diff.path).Nodup)
    (hcov : dirCovered table)
    (hok : putFile earlier table commit path0 refs ts = .ok table') :
    dirCovered table'
    ∧ (∃ x ∈ table', x.path = fixPath path0 ∧ x.fileType = FileType.FILE)
    ∧ (∀ q ∈ getPrefixes (fixPath path0), hasDirDiff table' q)
    ∧ (∀ x ∈ table', x.id = getDiffID commit.id x.path)
    ∧ (table'.map Diff.path).Nodup := by
  simp only [putFile] at hok
  split at hok
  · rename_i hall
    have hok2 : insertDiffsWithMerge table
        (((getPrefixes (fixPath path0)).map (putFileDirDiff commit ts))
          ++ [putFileFileDiff commit (fixPath path0) refs ts])
        = .ok table' := hok
    obtain ⟨tmid, hdirs, hfile1⟩ := insertDiffsWithMerge_append_ok hok2
    have hall_dir : ∀ p ∈ (getPrefixes (fixPath path0)).map
        (putFileDirDiff commit ts),
        p.id = getDiffID commit.id p.path ∧ p.fileType = FileType.DIR := by
      intro p hp
      obtain ⟨pre, _, hpre⟩ := List.mem_map.mp hp
      rw [← hpre]
      exact ⟨rfl, rfl⟩
    obtain ⟨ha, hb, hc, hd2, he⟩ :=
      insertDiffs_dir_phase _ table tmid hkey hnd hall_dir hdirs
    obtain ⟨tmid2, hfi, hnil⟩ := insertDiffsWithMerge_cons_ok hfile1
    have htab' : tmid2 = table' := by
      simpa [insertDiffsWithMerge] using hnil
    subst htab'
    have hfchar := insertDiffWithMerge_char ha rfl hb hfi
    have hnodir_at_path : ¬ hasDirDiff tmid (fixPath path0) := by
      rintro ⟨x, hx, hxp, hxt⟩
      have h2 := hfchar.2.2.2.2.2.2 x hx hxp
      rw [hxt] at h2
      rcases h2 with h | h <;> exact FileType.noConfusion h
    have htrans : ∀ q, q ≠ fixPath path0 →
        hasDirDiff tmid q → hasDirDiff tmid2 q := by
      rintro q hq ⟨x, hx, hxp, hxt⟩
      refine ⟨x, hfchar.2.2.1 x hx ?_, hxp, hxt⟩
      rw [hxp]
      exact hq
    have hdirq : ∀ q ∈ getPrefixes (fixPath path0), hasDirDiff tmid2 q := by
      intro q hq
      have h1 : hasDirDiff tmid q :=
        hd2 (putFileDirDiff commit ts q) (List.mem_map.mpr ⟨q, hq, rfl⟩)
      refine htrans q ?_ h1
      intro hqp
      exact hnodir_at_path (hqp ▸ h1)
    refine ⟨?_, ?_, hdirq, hfchar.1, hfchar.2.1⟩
    · intro y hy hft q hq
      by_cases hyp : y.path = fixPath path0
      · refine hdirq q ?_
        rw [← hyp]
        exact hq
      · have hy2 : y ∈ tmid := hfchar.2.2.2.1 y hy hyp
        have hy3 : y ∈ table := he y hy2 hft
        have h5 : hasDirDiff tmid q := hc q (hcov y hy3 hft q hq)
        refine htrans q ?_ h5
        intro hqp
        exact hnodir_at_path (hqp ▸ h5)
    · obtain ⟨x, hx, hxp, hxt⟩ := hfchar.2.2.2.2.1
      exact ⟨x, hx, hxp, hxt⟩
  · exact absurd hok (by simp)

/-- Join path components with single slashes. -/
def joinSlash : List String → String
  | [] => ""
  | [p] => p
  | p :: rest => p ++ "/" ++ joinSlash rest

/-- Stated from the claim's words, for comparison with `getPrefixes`: the
strict ancestor paths of a normalized absolute path are the proper prefixes
of its slash-separated component list, paths formed through empty path
components included (path normalization permits empty components, spec §6). -/
def specStrictAncestors (path : String) : List String :=
  let parts := (splitSlash path).drop 1
  (List.range (parts.length - 1)).map
    (fun i => "/" ++ joinSlash (parts.take (i + 1)))

example : specStrictAncestors "/a//b/c" = ["/a", "/a/", "/a//b"] := by decide

/-- The open commit of the C9 concrete run. -/
def exCommit9 : CommitRec :=
  { id := "c9", repo := "r", started := 0, finished := none
    cancelled := false, branchClocks := [⟨[⟨"m", 0⟩]⟩]
    provenance := [], size := 0 }

/-- The diff table produced by `PutFile` of `/a//b/c` into an empty commit:
`DIR` diffs at `/a` and `/a/b` (the empty component is skipped) and the
`FILE` diff at `/a//b/c`. -/
def exTable9 : List Diff :=
  [{ id := "c9:/a", repo := "r", commitID := "c9", path := "/a"
     branchClocks := [⟨[⟨"m", 0⟩]⟩], fileType := FileType.DIR
     blockRefs := [], size := 0, delete := false, modified := 1 },
   { id := "c9:/a/b", repo := "r", commitID := "c9", path := "/a/b"
     branchClocks := [⟨[⟨"m", 0⟩]⟩], fileType := FileType.DIR
     blockRefs := [], size := 0, delete := false, modified := 1 },
   { id := "c9:/a//b/c", repo := "r", commitID := "c9", path := "/a//b/c"
     branchClocks := [⟨[⟨"m", 0⟩]⟩], fileType := FileType.FILE
     blockRefs := [⟨"h", 0, 3⟩], size := 3, delete := false, modified := 1 }]

/-- C9, counterexample: the claim says every strict ancestor path — paths
formed through empty components included — of a leaf `FILE` diff carries a
`DIR` diff.  Putting `/a//b/c` succeeds and leaves the leaf `FILE` diff in
place, but its strict ancestor `/a//b` (which contains an empty component)
has no diff at all: `getPrefixes` skips empty components and plans `/a/b`
instead. -/
theorem c9_counterexample :
    putFile (fun _ => []) [] exCommit9 "/a//b/c" [⟨"h", 0, 3⟩] 1
      = .ok exTable9
    ∧ "/a//b" ∈ specStrictAncestors "/a//b/c"
    ∧ exTable9.any (fun d => d.path = "/a//b/c"
        ∧ d.fileType = FileType.FILE) = true
    ∧ exTable9.all (fun d => d.path ≠ "/a//b") = true :=
  ⟨rfl, by decide, by decide, by decide⟩

/-- C9, witness for the amended theorem: the concrete put of `/a//b/c` into
an empty commit yields a covered table with a `DIR` diff at `/a`. -/
theorem c9_witness :
    dirCovered exTable9 ∧ hasDirDiff exTable9 "/a" :=
  ⟨(c9_put_file_dir_coverage (fun _ => []) [] exCommit9 "/a//b/c"
      [⟨"h", 0, 3⟩] 1 exTable9 (by simp) (by simp) (by simp [dirCovered])
      rfl).1
  , (c9_put_file_dir_coverage (fun _ => []) [] exCommit9 "/a//b/c"
      [⟨"h", 0, 3⟩] 1 exTable9 (by simp) (by simp) (by simp [dirCovered])
      rfl).2.2.1 "/a" (by decide)⟩
